import Mathlib

/-!
Shallow embedding of the tree-sitter-cangjie external scanner
(`src/tree-sitter-cangjie/src/scanner.c`) and proofs about the claims of
the specification.

The scanner state (`Scanner`) mirrors the C `Scanner` struct: a fixed
backing array `indent_stack` together with a separate `indent_stack_size`
(the C code keeps a 100-slot `int` array; here the backing store is a
`List Nat` and the live stack is its `indent_stack_size`-prefix).  The
lexer cursor (`Lexer`) mirrors the relevant part of the tree-sitter
`TSLexer`: the remaining input, a one-character lookahead (`0` at end of
input, as in tree-sitter), `advance`, and `get_column` — tree-sitter
resets the column to `0` exactly when a `'\n'` character is consumed, and
increments it otherwise.

`scan`, `serialize` and `deserialize` are direct transliterations of
`tree_sitter_cangjie_external_scanner_scan`, `..._serialize` and
`..._deserialize`.  `deserialize` returns an `Option`: every byte access
goes through `List.get?`, so a `none` result would mean an out-of-bounds
read; the guards of the C code are reproduced verbatim and are proved to
make the reads total.
-/

namespace Cangjie

inductive TokenType where
  | raw
  | indent
  | dedent
  | newline
  deriving DecidableEq

/-- The C scanner struct: `hash_count`, `indent_stack[100]`,
`indent_stack_size`, `current_indent`, `at_line_start`. -/
structure Scanner where
  hash_count : Nat
  indent_stack : List Nat
  indent_stack_size : Nat
  current_indent : Nat
  at_line_start : Bool
  deriving DecidableEq

/-- The live part of the indentation stack: the first
`indent_stack_size` entries of the backing array. -/
def liveStack (s : Scanner) : List Nat := s.indent_stack.take s.indent_stack_size

/-- The stack top, `indent_stack[indent_stack_size - 1]` in the C code. -/
def topOf (s : Scanner) : Nat := s.indent_stack.getD (s.indent_stack_size - 1) 0

/-- Capacity of the C `int indent_stack[100]` array. -/
def maxStackDepth : Nat := 100

/-- Mirrors `tree_sitter_cangjie_external_scanner_create`: the freshly
malloc'ed backing array `u` has only its slot 0 written (to 0). -/
def create (u : List Nat) : Scanner :=
  { hash_count := 0, indent_stack := u.set 0 0, indent_stack_size := 1,
    current_indent := 0, at_line_start := true }

/-- The tree-sitter lexing cursor: remaining input plus the current
column of the lookahead position. -/
structure Lexer where
  input : List Char
  column : Nat
  deriving DecidableEq

def nulChar : Char := Char.ofNat 0

/-- The lookahead character; `0` at end of input, as in tree-sitter. -/
def lookahead (lx : Lexer) : Char := lx.input.headD nulChar

/-- Mirrors `lexer->advance`: consuming `'\n'` resets the column to 0,
consuming any other character increments it (tree-sitter lexer.c). -/
def advance (lx : Lexer) : Lexer :=
  match lx.input with
  | [] => lx
  | c :: rest => { input := rest, column := if c = '\n' then 0 else lx.column + 1 }

def advanceMany : Lexer → Nat → Lexer
  | lx, 0 => lx
  | lx, k + 1 => advanceMany (advance lx) k

/-- The leading-whitespace loop of the scan function (lines 108-116):
returns the accumulated indentation width (space = 1, tab = 4), the
number of characters consumed, and the remaining input. -/
def measureIndent : List Char → Nat × Nat × List Char
  | [] => (0, 0, [])
  | c :: rest =>
    if c = ' ' then
      let m := measureIndent rest
      (m.1 + 1, m.2.1 + 1, m.2.2)
    else if c = '\t' then
      let m := measureIndent rest
      (m.1 + 4, m.2.1 + 1, m.2.2)
    else (0, 0, c :: rest)

/-- The dedent pop loop (lines 142-144):
`while (size > 1 && indent_stack[size-1] > indent) size--;`. -/
def popWhile (arr : List Nat) (w : Nat) : Nat → Nat
  | 0 => 0
  | 1 => 1
  | size + 2 =>
    if arr.getD (size + 1) 0 > w then popWhile arr w (size + 1) else size + 2

/-- Count of leading `'#'` characters (lines 161-165 and 186-190). -/
def hashRun : List Char → Nat
  | [] => 0
  | c :: rest => if c = '#' then hashRun rest + 1 else 0

/-- The raw-string body loop (lines 180-199).  On a quote, up to `n`
marker characters are consumed; exactly `n` closes the literal, fewer
are absorbed as body content.  A `0` lookahead (end of input) leaves the
literal unterminated (`none`).  The fuel argument is the length of the
remaining input in `scan`; every step consumes at least one character,
so the fuel never runs out there. -/
def scanBody (q : Char) (n : Nat) : Nat → List Char → Option (List Char)
  | 0, _ => none
  | _ + 1, [] => none
  | fuel + 1, c :: cs =>
    if c = nulChar then none
    else if c = q then
      let k := min (hashRun cs) n
      if k = n then some (cs.drop k) else scanBody q n fuel (cs.drop k)
    else scanBody q n fuel cs

/-- The indentation block of the scan function (lines 106-156).
`Sum.inl` is an early `return` out of the scan function; `Sum.inr` is
falling through to the raw-string block with the updated scanner and
lexer. -/
def indentPhase (s : Scanner) (valid : TokenType → Bool) (lx : Lexer) :
    (Option TokenType × Scanner × Lexer) ⊕ (Scanner × Lexer) :=
  if s.at_line_start = true ∧ (valid .indent = true ∨ valid .dedent = true) then
    let m := measureIndent lx.input
    let w := m.1
    let lx1 : Lexer := { input := m.2.2, column := lx.column + m.2.1 }
    if lookahead lx1 = '/' ∧ lx1.column = w then
      Sum.inl (none, { s with at_line_start := false }, lx1)
    else if lookahead lx1 = '\n' ∨ lookahead lx1 = '\r' ∨ lookahead lx1 = nulChar then
      Sum.inl (none, { s with at_line_start := false }, lx1)
    else
      let previous := topOf s
      if w > previous ∧ valid .indent = true then
        Sum.inl (some .indent,
          { s with indent_stack := s.indent_stack.set s.indent_stack_size w,
                   indent_stack_size := s.indent_stack_size + 1,
                   current_indent := w, at_line_start := false }, lx1)
      else if w < previous ∧ valid .dedent = true then
        let ns := popWhile s.indent_stack w s.indent_stack_size
        if s.indent_stack.getD (ns - 1) 0 = w then
          Sum.inl (some .dedent,
            { s with indent_stack_size := ns, current_indent := w,
                     at_line_start := false }, lx1)
        else
          Sum.inr ({ s with indent_stack_size := ns, current_indent := w,
                            at_line_start := false }, lx1)
      else
        Sum.inr ({ s with current_indent := w, at_line_start := false }, lx1)
  else Sum.inr (s, lx)

/-- Mirrors `tree_sitter_cangjie_external_scanner_scan`.  Returns the
produced token (or `none` for a decline), the mutated scanner state, and
the lexer as left by the call. -/
def scan (s : Scanner) (valid : TokenType → Bool) (lx : Lexer) :
    Option TokenType × Scanner × Lexer :=
  if valid .newline = true ∧ (lookahead lx = '\n' ∨ lookahead lx = '\r') then
    let lx1 := advance lx
    let lx2 := if lookahead lx1 = '\n' ∧ lx1.column = 0 then advance lx1 else lx1
    (some .newline, { s with at_line_start := true }, lx2)
  else
    match indentPhase s valid lx with
    | Sum.inl r => r
    | Sum.inr (s1, lx1) =>
      if valid .raw = true then
        let n := hashRun lx1.input
        if n = 0 then (none, s1, lx1)
        else
          let lx2 := advanceMany lx1 n
          if lookahead lx2 ≠ '"' ∧ lookahead lx2 ≠ '\'' then (none, s1, lx2)
          else
            let q := lookahead lx2
            let lx3 := advance lx2
            match scanBody q n lx3.input.length lx3.input with
            | some rest => (some .raw, s1, advanceMany lx3 (lx3.input.length - rest.length))
            | none => (none, { s1 with at_line_start := false },
                       advanceMany lx3 lx3.input.length)
      else (none, { s1 with at_line_start := false }, lx1)

def allValid : TokenType → Bool := fun _ => true

/-- A host driving loop for a whole lexing session, with every external
token kind acceptable at every call: a produced token is committed; on a
decline the lexer position is reset (tree-sitter discards uncommitted
lookahead) and the grammar's ordinary tokenizer consumes one character. -/
def session : Nat → Scanner → Lexer → List TokenType × Scanner
  | 0, s, _ => ([], s)
  | fuel + 1, s, lx =>
    match scan s allValid lx with
    | (some t, s1, lx1) =>
      let r := session fuel s1 lx1
      (t :: r.1, r.2)
    | (none, s1, _) =>
      match lx.input with
      | [] => ([], s1)
      | _ :: _ => session fuel s1 (advance lx)

/-- Fold a list of scan calls (acceptable-token set and lexer input for
each call) through the scanner state. -/
def scanFold : Scanner → List ((TokenType → Bool) × Lexer) → Scanner
  | s, [] => s
  | s, (v, lx) :: rest => scanFold (scan s v lx).2.1 rest

/-- Little-endian byte encoding of a 4-byte `int` (native byte order of
the reference platform). -/
def enc4 (x : Nat) : List Nat :=
  [x % 256, x / 256 % 256, x / 65536 % 256, x / 16777216 % 256]

def encInts : List Nat → List Nat
  | [] => []
  | x :: xs => enc4 x ++ encInts xs

/-- Mirrors `tree_sitter_cangjie_external_scanner_serialize`: one byte of
`hash_count`, one byte of `indent_stack_size`, four bytes of
`current_indent`, one byte of `at_line_start`, then the
`indent_stack_size` live stack entries, four bytes each. -/
def serialize (s : Scanner) : List Nat :=
  [s.hash_count % 256, s.indent_stack_size % 256] ++ enc4 s.current_indent ++
    [if s.at_line_start then 1 else 0] ++ encInts (liveStack s)

/-- Read one 4-byte integer from the buffer. -/
def read4 (buf : List Nat) (i : Nat) : Option Nat :=
  match buf.get? i, buf.get? (i + 1), buf.get? (i + 2), buf.get? (i + 3) with
  | some b0, some b1, some b2, some b3 =>
    some (b0 + 256 * b1 + 65536 * b2 + 16777216 * b3)
  | _, _, _, _ => none

/-- Read `k` consecutive 4-byte integers starting at offset `i`. -/
def readInts (buf : List Nat) : Nat → Nat → Option (List Nat)
  | _, 0 => some []
  | i, k + 1 =>
    match read4 buf i, readInts buf (i + 4) (k) with
    | some v, some vs => some (v :: vs)
    | _, _ => none

/-- Mirrors `tree_sitter_cangjie_external_scanner_deserialize`, including
its exact bound checks (`length > offset`, `length > offset + 4`,
`length > offset + size * 4`); a field whose check fails keeps its
pre-call value.  The stack `memcpy` overwrites the first `size` array
entries and leaves the rest of the backing array untouched. -/
def deserialize (s : Scanner) (buf : List Nat) : Option Scanner :=
  let len := buf.length
  (if 0 < len then (buf.get? 0).map (fun b => (b, 1))
   else some (s.hash_count, 0)).bind fun p1 =>
  (if p1.2 < len then (buf.get? p1.2).map (fun b => (b, p1.2 + 1))
   else some (s.indent_stack_size, p1.2)).bind fun p2 =>
  (if p2.2 + 4 < len then (read4 buf p2.2).map (fun v => (v, p2.2 + 4))
   else some (s.current_indent, p2.2)).bind fun p3 =>
  (if p3.2 < len then (buf.get? p3.2).map (fun b => ((b ≠ 0 : Bool), p3.2 + 1))
   else some (s.at_line_start, p3.2)).bind fun p4 =>
  (if p4.2 + p2.1 * 4 < len then
     (readInts buf p4.2 p2.1).map (fun vs => vs ++ s.indent_stack.drop p2.1)
   else some s.indent_stack).map fun arr =>
  { hash_count := p1.1, indent_stack := arr, indent_stack_size := p2.1,
    current_indent := p3.1, at_line_start := p4.1 }

/-- The indentation stack invariant of the specification: the live stack
is non-empty, its bottom element is 0, and it is strictly increasing
from bottom to top. -/
def Inv (s : Scanner) : Prop :=
  liveStack s ≠ [] ∧ (liveStack s).head? = some 0 ∧
    List.Pairwise (· < ·) (liveStack s)

/-- Check that every interior occurrence of the quote `q` in a raw-string
body is followed by fewer than `n` marker characters (appending `q`
delimits the trailing marker run exactly as the closing quote of the
literal does). -/
def okBody (n : Nat) (q : Char) : List Char → Bool
  | [] => true
  | c :: cs =>
    (if c = q then decide (hashRun (cs ++ [q]) < n) else true) && okBody n q cs

/-! Helper lemmas. -/

theorem isSome_bind_of {α β : Type} {x : Option α} {f : α → Option β}
    (hx : x.isSome = true) (hf : ∀ a, (f a).isSome = true) :
    (x.bind f).isSome = true := by
  rcases x with _ | a
  · simp at hx
  · exact hf a

theorem isSome_get?_of_lt {l : List Nat} {i : Nat} (h : i < l.length) :
    (l.get? i).isSome = true := by
  rw [List.get?_eq_get h]
  rfl

theorem isSome_ite_map {c : Prop} [Decidable c] {α β : Type} {x : Option α}
    {f : α → β} {y : β} (h : c → x.isSome = true) :
    (if c then x.map f else some y).isSome = true := by
  split
  · rename_i hc
    rcases x with _ | a
    · simpa using h hc
    · rfl
  · rfl

theorem isSome_read4 {buf : List Nat} {i : Nat} (h : i + 3 < buf.length) :
    (read4 buf i).isSome = true := by
  have h0 : i < buf.length := by omega
  have h1 : i + 1 < buf.length := by omega
  have h2 : i + 2 < buf.length := by omega
  unfold read4
  rw [List.get?_eq_get h0, List.get?_eq_get h1, List.get?_eq_get h2, List.get?_eq_get h]
  rfl

theorem isSome_readInts {buf : List Nat} :
    ∀ (k i : Nat), i + k * 4 < buf.length → (readInts buf i k).isSome = true := by
  intro k
  induction k with
  | zero => intro i _; rfl
  | succ k ih =>
    intro i hik
    have h4 : (read4 buf i).isSome = true := isSome_read4 (by omega)
    have hrest : (readInts buf (i + 4) k).isSome = true := ih (i + 4) (by omega)
    obtain ⟨v, hv⟩ := Option.isSome_iff_exists.mp h4
    obtain ⟨vs, hvs⟩ := Option.isSome_iff_exists.mp hrest
    unfold readInts
    rw [hv, hvs]
    rfl

/-- C9.  Deserialization is defensive: every field read is bound-checked
against the supplied buffer length before it happens, so `deserialize`
never performs an out-of-bounds read (it always returns `some`); and on
a truncated buffer holding only the two header bytes it sets
`hash_count` and `indent_stack_size` from those bytes and leaves
`current_indent`, `at_line_start` and all stack array contents at their
pre-call values. -/
theorem c9_deserialize_defensive (s : Scanner) (buf : List Nat) (b0 b1 : Nat) :
    (deserialize s buf).isSome = true ∧
      deserialize s [b0, b1]
        = some { s with hash_count := b0, indent_stack_size := b1 } := by
  constructor
  · unfold deserialize
    apply isSome_bind_of (isSome_ite_map fun hc => isSome_get?_of_lt hc)
    intro p1
    apply isSome_bind_of (isSome_ite_map fun hc => isSome_get?_of_lt hc)
    intro p2
    apply isSome_bind_of (isSome_ite_map fun hc => isSome_read4 (by omega))
    intro p3
    apply isSome_bind_of (isSome_ite_map fun hc => isSome_get?_of_lt hc)
    intro p4
    rcases hlast : (if p4.2 + p2.1 * 4 < buf.length then
        (readInts buf p4.2 p2.1).map (fun vs => vs ++ s.indent_stack.drop p2.1)
      else some s.indent_stack) with _ | arr
    · have := @isSome_ite_map (p4.2 + p2.1 * 4 < buf.length) _ _ _
        (readInts buf p4.2 p2.1)
        (fun vs => vs ++ s.indent_stack.drop p2.1) s.indent_stack
        (fun hc => isSome_readInts p2.1 p4.2 hc)
      rw [hlast] at this
      simp at this
    · rfl
  · unfold deserialize
    have hg : ¬ (2 + b1 * 4 < 2) := by omega
    simp [List.get?, hg]

theorem mem_of_getLast?_eq : ∀ {l : List Nat} {t : Nat}, l.getLast? = some t → t ∈ l := by
  intro l
  induction l with
  | nil => intro t h; simp at h
  | cons a l ih =>
    intro t h
    rcases l with _ | ⟨b, l'⟩
    · simp at h
      simp [h]
    · rw [List.getLast?_cons_cons] at h
      exact List.mem_cons_of_mem a (ih h)

theorem pairwise_le_getLast : ∀ {l : List Nat} {t : Nat},
    List.Pairwise (· < ·) l → l.getLast? = some t → ∀ x ∈ l, x ≤ t := by
  intro l
  induction l with
  | nil => intro t _ _ x hx; simp at hx
  | cons a l ih =>
    intro t hp hl x hx
    rcases l with _ | ⟨b, l'⟩
    · simp at hl
      simp at hx
      omega
    · rw [List.getLast?_cons_cons] at hl
      rcases List.mem_cons.mp hx with rfl | hx'
      · have ht : t ∈ b :: l' := mem_of_getLast?_eq hl
        have := (List.pairwise_cons.mp hp).1 t ht
        omega
      · exact ih (List.pairwise_cons.mp hp).2 hl x hx'

theorem getD_idx {arr : List Nat} {i : Nat} (hi : i < arr.length) :
    arr.getD i 0 = arr[i] := by
  rw [List.getD_eq_getElem?_getD, List.getElem?_eq_getElem hi]
  rfl

theorem getD_take_last {arr : List Nat} {size : Nat} (h1 : 1 ≤ size)
    (h2 : size ≤ arr.length) :
    (arr.take size).getLast? = some (arr.getD (size - 1) 0) := by
  rw [List.getLast?_eq_get?]
  have hlen : (arr.take size).length = size := by
    rw [List.length_take]; omega
  rw [hlen]
  have hlt2 : size - 1 < arr.length := by omega
  rw [List.get?_take (by omega), List.get?_eq_get hlt2, getD_idx hlt2]
  rfl

theorem getD_mem_take {arr : List Nat} {i size : Nat} (h1 : i < size)
    (h2 : size ≤ arr.length) : arr.getD i 0 ∈ arr.take size := by
  have hi : i < arr.length := by omega
  have h3 : (arr.take size).get? i = some (arr.getD i 0) := by
    rw [List.get?_take h1, List.get?_eq_get hi, getD_idx hi]
    rfl
  exact List.get?_mem h3

theorem take_set_succ : ∀ (l : List Nat) (i v : Nat), i < l.length →
    (l.set i v).take (i + 1) = l.take i ++ [v] := by
  intro l
  induction l with
  | nil => intro i v h; simp at h
  | cons a t ih =>
    intro i v h
    cases i with
    | zero => simp
    | succ i =>
      simp only [List.set, List.take_succ_cons, List.take_cons_succ]
      rw [ih i v (by simpa using h)]
      simp

theorem popWhile_le (arr : List Nat) (w : Nat) : ∀ size, popWhile arr w size ≤ size := by
  intro size
  induction size using Nat.strong_induction_on with
  | _ size ih =>
    match size with
    | 0 => simp [popWhile]
    | 1 => simp [popWhile]
    | k + 2 =>
      rw [popWhile]
      split
      · exact le_trans (ih (k + 1) (by omega)) (by omega)
      · exact le_refl _

theorem popWhile_pos (arr : List Nat) (w : Nat) :
    ∀ size, 1 ≤ size → 1 ≤ popWhile arr w size := by
  intro size
  induction size using Nat.strong_induction_on with
  | _ size ih =>
    match size with
    | 0 => intro h0; omega
    | 1 => intro _; simp [popWhile]
    | k + 2 =>
      intro _
      rw [popWhile]
      split
      · exact ih (k + 1) (by omega) (by omega)
      · omega

theorem popWhile_take {arr : List Nat} {w : Nat} :
    ∀ size, 1 ≤ size → size ≤ arr.length →
      List.Pairwise (· < ·) (arr.take size) → arr.getD 0 0 ≤ w →
      arr.take (popWhile arr w size)
        = (arr.take size).filter (fun x => decide (x ≤ w)) := by
  intro size
  induction size using Nat.strong_induction_on with
  | _ size ih =>
    match size with
    | 0 => intro h0 _ _ _; omega
    | 1 =>
      intro _ h2 _ hb
      rcases arr with _ | ⟨a, t⟩
      · simp at h2
      · have ha : a ≤ w := by simpa using hb
        simp [popWhile, ha]
    | k + 2 =>
      intro h1 h2 hp hb
      have hsucc : arr.take (k + 2) = arr.take (k + 1) ++ [arr.getD (k + 1) 0] := by
        rw [List.take_succ]
        congr 1
        rw [List.getElem?_eq_getElem (show k + 1 < arr.length by omega)]
        rw [getD_idx (show k + 1 < arr.length by omega)]
        rfl
      have hsub : (arr.take (k + 1)).Sublist (arr.take (k + 2)) := by
        have : arr.take (k + 1) = (arr.take (k + 2)).take (k + 1) := by
          rw [List.take_take]
          congr 1
          omega
        rw [this]
        exact List.take_sublist _ _
      rw [popWhile]
      split
      · rename_i hgt
        rw [ih (k + 1) (by omega) (by omega) (by omega) (hp.sublist hsub) hb, hsucc,
          List.filter_append]
        have hone : List.filter (fun x => decide (x ≤ w)) [arr.getD (k + 1) 0] = [] := by
          have hgt2 := hgt
          generalize arr.getD (k + 1) 0 = a at hgt2 ⊢
          simp
          omega
        rw [hone, List.append_nil]
      · rename_i hle
        push_neg at hle
        symm
        rw [List.filter_eq_self]
        intro x hx
        have hlast := @getD_take_last arr (k + 2) (by omega) h2
        have hx2 : x ≤ arr.getD (k + 1) 0 := pairwise_le_getLast hp hlast x hx
        simp
        omega

theorem inv_size_pos {s : Scanner} (h : Inv s) : 1 ≤ s.indent_stack_size := by
  obtain ⟨hne, -, -⟩ := h
  unfold liveStack at hne
  by_contra hs
  push_neg at hs
  have : s.indent_stack_size = 0 := by omega
  simp [this] at hne

theorem inv_arr_ne_nil {s : Scanner} (h : Inv s) : s.indent_stack ≠ [] := by
  obtain ⟨hne, -, -⟩ := h
  unfold liveStack at hne
  intro hc
  simp [hc] at hne

theorem inv_of_fields {s s' : Scanner} (h1 : s'.indent_stack = s.indent_stack)
    (h2 : s'.indent_stack_size = s.indent_stack_size) (h : Inv s) : Inv s' := by
  unfold Inv liveStack at *
  rw [h1, h2]
  exact h

theorem inv_push {s : Scanner} (h : Inv s) {w ci : Nat} (hw : topOf s < w) :
    Inv { s with indent_stack := s.indent_stack.set s.indent_stack_size w,
                 indent_stack_size := s.indent_stack_size + 1,
                 current_indent := ci, at_line_start := false } := by
  have hsz1 : 1 ≤ s.indent_stack_size := inv_size_pos h
  obtain ⟨hne, hh, hp⟩ := h
  unfold Inv liveStack topOf at *
  simp only at *
  by_cases hlen : s.indent_stack_size < s.indent_stack.length
  · rw [take_set_succ _ _ _ hlen]
    have hlast := getD_take_last hsz1 (le_of_lt hlen)
    refine ⟨by simp, ?_, ?_⟩
    · rw [List.head?_append, hh]
      rfl
    · rw [List.pairwise_append]
      refine ⟨hp, List.pairwise_singleton _ _, ?_⟩
      intro x hx y hy
      simp at hy
      subst hy
      have := pairwise_le_getLast hp hlast x hx
      omega
  · push_neg at hlen
    rw [List.set_eq_of_length_le hlen, List.take_of_length_le (by omega)]
    rw [List.take_of_length_le hlen] at hne hh hp
    exact ⟨hne, hh, hp⟩

theorem inv_shrink {s : Scanner} (h : Inv s) {ns ci : Nat} (h1 : 1 ≤ ns)
    (h2 : ns ≤ s.indent_stack_size) :
    Inv { s with indent_stack_size := ns, current_indent := ci,
                 at_line_start := false } := by
  have harr : s.indent_stack ≠ [] := inv_arr_ne_nil h
  obtain ⟨hne, hh, hp⟩ := h
  unfold Inv liveStack at *
  simp only at *
  have htt : s.indent_stack.take ns = (s.indent_stack.take s.indent_stack_size).take ns := by
    rw [List.take_take]
    congr 1
    omega
  refine ⟨?_, ?_, ?_⟩
  · intro hc
    rw [List.take_eq_nil_iff] at hc
    rcases hc with hc | hc
    · omega
    · exact harr hc
  · rw [List.head?_take] at hh ⊢
    rw [if_neg (by omega)] at hh ⊢
    exact hh
  · rw [htt]
    exact hp.sublist (List.take_sublist _ _)

theorem indentPhase_inl_inv {s : Scanner} {valid : TokenType → Bool} {lx : Lexer}
    {t : Option TokenType} {s' : Scanner} {lx' : Lexer}
    (heq : indentPhase s valid lx = Sum.inl (t, s', lx')) (h : Inv s) : Inv s' := by
  simp only [indentPhase] at heq
  split at heq
  · split at heq
    · simp only [Sum.inl.injEq, Prod.mk.injEq] at heq
      obtain ⟨rfl, rfl, rfl⟩ := heq
      exact inv_of_fields rfl rfl h
    · split at heq
      · simp only [Sum.inl.injEq, Prod.mk.injEq] at heq
        obtain ⟨rfl, rfl, rfl⟩ := heq
        exact inv_of_fields rfl rfl h
      · split at heq
        · rename_i hcond
          simp only [Sum.inl.injEq, Prod.mk.injEq] at heq
          obtain ⟨rfl, rfl, rfl⟩ := heq
          exact inv_push h hcond.1
        · split at heq
          · split at heq
            · simp only [Sum.inl.injEq, Prod.mk.injEq] at heq
              obtain ⟨rfl, rfl, rfl⟩ := heq
              exact inv_shrink h (popWhile_pos _ _ _ (inv_size_pos h)) (popWhile_le _ _ _)
            · simp at heq
          · simp at heq
  · simp at heq

theorem indentPhase_inr_inv {s : Scanner} {valid : TokenType → Bool} {lx : Lexer}
    {s1 : Scanner} {lx1 : Lexer}
    (heq : indentPhase s valid lx = Sum.inr (s1, lx1)) (h : Inv s) : Inv s1 := by
  simp only [indentPhase] at heq
  split at heq
  · split at heq
    · simp at heq
    · split at heq
      · simp at heq
      · split at heq
        · simp at heq
        · split at heq
          · split at heq
            · simp at heq
            · simp only [Sum.inr.injEq, Prod.mk.injEq] at heq
              obtain ⟨rfl, rfl⟩ := heq
              exact inv_shrink h (popWhile_pos _ _ _ (inv_size_pos h)) (popWhile_le _ _ _)
          · simp only [Sum.inr.injEq, Prod.mk.injEq] at heq
            obtain ⟨rfl, rfl⟩ := heq
            exact inv_of_fields rfl rfl h
  · simp only [Sum.inr.injEq, Prod.mk.injEq] at heq
    obtain ⟨rfl, rfl⟩ := heq
    exact h

/-- C6.  The freshly created scanner's live stack is the singleton
`[0]`, and every scan call — for every input and every acceptable-token
set — preserves the invariant that the live stack is non-empty, its
bottom element is 0, and its entries are strictly increasing from
bottom to top. -/
theorem c6_invariant :
    (∀ u : List Nat, u ≠ [] → liveStack (create u) = [0]) ∧
      ∀ (s : Scanner) (valid : TokenType → Bool) (lx : Lexer),
        Inv s → Inv (scan s valid lx).2.1 := by
  constructor
  · intro u hu
    rcases u with _ | ⟨a, t⟩
    · exact absurd rfl hu
    · rfl
  · intro s valid lx h
    unfold scan
    split
    · exact inv_of_fields rfl rfl h
    · rcases hip : indentPhase s valid lx with ⟨t, s', lx'⟩ | ⟨s1, lx1⟩
      · exact indentPhase_inl_inv hip h
      · have hs1 : Inv s1 := indentPhase_inr_inv hip h
        dsimp only
        split
        · split
          · exact hs1
          · split
            · exact hs1
            · split
              · exact hs1
              · exact inv_of_fields rfl rfl hs1
        · exact inv_of_fields rfl rfl hs1

theorem c6_invariant_witness :
    liveStack (create [7, 7, 7]) = [0] ∧
      Inv (scan ⟨0, [0, 3], 2, 1, true⟩ allValid ⟨"      x".toList, 0⟩).2.1 :=
  ⟨c6_invariant.1 [7, 7, 7] (by decide),
   c6_invariant.2 ⟨0, [0, 3], 2, 1, true⟩ allValid ⟨"      x".toList, 0⟩
     ⟨by decide, by decide, by decide⟩⟩

theorem measureIndent_eq_self {l : List Char} (h1 : l.headD nulChar ≠ ' ')
    (h2 : l.headD nulChar ≠ '\t') : measureIndent l = (0, 0, l) := by
  rcases l with _ | ⟨c, t⟩
  · rfl
  · simp only [List.headD_cons] at h1 h2
    unfold measureIndent
    rw [if_neg h1, if_neg h2]

/-- A scan call in the misaligned-dedent situation: the stack array is
untouched, but the stack size has already been popped by the loop of
lines 142-144; the call emits no NEWLINE, INDENT or DEDENT token — it
declines unless the raw-string block separately produces a token. -/
theorem scan_misaligned (s : Scanner) (valid : TokenType → Bool) (lx : Lexer)
    (w cnt : Nat) (rest : List Char)
    (hm : measureIndent lx.input = (w, cnt, rest))
    (hal : s.at_line_start = true) (hvd : valid .dedent = true)
    (hr1 : rest.headD nulChar ≠ '\n') (hr2 : rest.headD nulChar ≠ '\r')
    (hr3 : rest.headD nulChar ≠ nulChar)
    (hr4 : ¬(rest.headD nulChar = '/' ∧ lx.column + cnt = w))
    (hw : w < topOf s)
    (hmis : s.indent_stack.getD (popWhile s.indent_stack w s.indent_stack_size - 1) 0 ≠ w) :
    (scan s valid lx).2.1.indent_stack = s.indent_stack ∧
      (scan s valid lx).2.1.indent_stack_size
        = popWhile s.indent_stack w s.indent_stack_size ∧
      ((scan s valid lx).1 = none ∨ (scan s valid lx).1 = some .raw) ∧
      (valid .raw = false → (scan s valid lx).1 = none) := by
  have hlx : ¬ (valid .newline = true ∧ (lookahead lx = '\n' ∨ lookahead lx = '\r')) := by
    rintro ⟨-, hc⟩
    have hs : lx.input.headD nulChar ≠ ' ' ∧ lx.input.headD nulChar ≠ '\t' := by
      rcases hc with hc | hc <;>
        rw [show lx.input.headD nulChar = lookahead lx from rfl, hc] <;>
        exact ⟨by decide, by decide⟩
    have hms := measureIndent_eq_self hs.1 hs.2
    rw [hms] at hm
    simp only [Prod.mk.injEq] at hm
    obtain ⟨-, -, hrest⟩ := hm
    rw [← hrest] at hr1 hr2
    rw [show lx.input.headD nulChar = lookahead lx from rfl] at hr1 hr2
    rcases hc with hc | hc
    · exact hr1 hc
    · exact hr2 hc
  have hip : indentPhase s valid lx
      = Sum.inr ({ s with
            indent_stack_size := popWhile s.indent_stack w s.indent_stack_size,
            current_indent := w, at_line_start := false },
          { input := rest, column := lx.column + cnt }) := by
    simp only [indentPhase, hm, lookahead]
    rw [if_pos ⟨hal, Or.inr hvd⟩]
    rw [if_neg hr4]
    rw [if_neg (by rintro (hc | hc | hc) <;> first | exact hr1 hc | exact hr2 hc | exact hr3 hc)]
    rw [if_neg (fun hcond => absurd hcond.1 (by omega))]
    rw [if_pos ⟨hw, hvd⟩]
    rw [if_neg hmis]
  unfold scan
  rw [if_neg hlx, hip]
  dsimp only
  cases hvr : valid TokenType.raw
  · rw [if_neg (by decide)]
    exact ⟨rfl, rfl, Or.inl rfl, fun _ => rfl⟩
  · rw [if_pos rfl]
    split
    · exact ⟨rfl, rfl, Or.inl rfl, fun hf => absurd hf (by decide)⟩
    · split
      · exact ⟨rfl, rfl, Or.inl rfl, fun hf => absurd hf (by decide)⟩
      · split
        · exact ⟨rfl, rfl, Or.inr rfl, fun hf => absurd hf (by decide)⟩
        · exact ⟨rfl, rfl, Or.inl rfl, fun hf => absurd hf (by decide)⟩

/-- C10.  The misaligned-dedent decline is not atomic: with DEDENT
acceptable, a line-start width `w` below the stack top matching no
stack entry leaves the live stack popped to exactly the prior entries
that are `≤ w` — not the stack as it was before the call. -/
theorem c10_misaligned_pops (s : Scanner) (valid : TokenType → Bool) (lx : Lexer)
    (w cnt : Nat) (rest : List Char)
    (hinv : Inv s) (hsz : s.indent_stack_size ≤ s.indent_stack.length)
    (hm : measureIndent lx.input = (w, cnt, rest))
    (hal : s.at_line_start = true) (hvd : valid .dedent = true)
    (hr1 : rest.headD nulChar ≠ '\n') (hr2 : rest.headD nulChar ≠ '\r')
    (hr3 : rest.headD nulChar ≠ nulChar)
    (hr4 : ¬(rest.headD nulChar = '/' ∧ lx.column + cnt = w))
    (hw : w < topOf s) (hmem : w ∉ liveStack s) :
    liveStack (scan s valid lx).2.1
        = (liveStack s).filter (fun x => decide (x ≤ w)) ∧
      liveStack (scan s valid lx).2.1 ≠ liveStack s := by
  have hsz1 : 1 ≤ s.indent_stack_size := inv_size_pos hinv
  have hb : s.indent_stack.getD 0 0 ≤ w := by
    obtain ⟨-, hh, -⟩ := hinv
    unfold liveStack at hh
    rw [List.head?_take, if_neg (by omega)] at hh
    rcases harr : s.indent_stack with _ | ⟨a, t⟩
    · rw [harr] at hh
      simp at hh
    · rw [harr] at hh
      simp only [List.head?_cons, Option.some.injEq] at hh
      simp [hh]
  have hmis : s.indent_stack.getD (popWhile s.indent_stack w s.indent_stack_size - 1) 0 ≠ w := by
    intro hceq
    apply hmem
    rw [← hceq]
    have hns1 : 1 ≤ popWhile s.indent_stack w s.indent_stack_size :=
      popWhile_pos _ _ _ hsz1
    have hns2 : popWhile s.indent_stack w s.indent_stack_size ≤ s.indent_stack_size :=
      popWhile_le _ _ _
    exact getD_mem_take (by omega) hsz
  obtain ⟨hstack, hsize, -, -⟩ :=
    scan_misaligned s valid lx w cnt rest hm hal hvd hr1 hr2 hr3 hr4 hw hmis
  have hpair : List.Pairwise (· < ·) (s.indent_stack.take s.indent_stack_size) := hinv.2.2
  have hfe : liveStack (scan s valid lx).2.1
      = (liveStack s).filter (fun x => decide (x ≤ w)) := by
    unfold liveStack
    rw [hstack, hsize]
    exact popWhile_take _ hsz1 hsz hpair hb
  refine ⟨hfe, ?_⟩
  rw [hfe]
  intro hceq
  have htop : topOf s ∈ liveStack s := by
    unfold topOf liveStack
    exact getD_mem_take (by omega) hsz
  have := (List.filter_eq_self.mp hceq) _ htop
  simp at this
  omega

theorem c10_witness :
    liveStack (scan ⟨0, [0, 4], 2, 0, true⟩ allValid ⟨[' ', ' ', 'x'], 0⟩).2.1
        = (liveStack (⟨0, [0, 4], 2, 0, true⟩ : Scanner)).filter
            (fun x => decide (x ≤ 2)) ∧
      liveStack (scan ⟨0, [0, 4], 2, 0, true⟩ allValid ⟨[' ', ' ', 'x'], 0⟩).2.1
        ≠ liveStack (⟨0, [0, 4], 2, 0, true⟩ : Scanner) :=
  c10_misaligned_pops ⟨0, [0, 4], 2, 0, true⟩ allValid ⟨[' ', ' ', 'x'], 0⟩ 2 2 ['x']
    ⟨by decide, by decide, by decide⟩ (by decide) (by decide) (by decide) (by decide)
    (by decide) (by decide) (by decide) (by decide) (by decide) (by decide)

/-- C7, amended.  In the misaligned-dedent situation (line-start width
strictly below the stack top, DEDENT acceptable, no stack entry equal to
the width) the call emits no NEWLINE, INDENT or DEDENT token and raises
nothing; it produces no token at all whenever the raw-string kind is not
acceptable (only a raw-string token can still be produced, by the
separate raw-string block the control flow falls through to). -/
theorem c7_misaligned_declines (s : Scanner) (valid : TokenType → Bool) (lx : Lexer)
    (w cnt : Nat) (rest : List Char)
    (hinv : Inv s) (hsz : s.indent_stack_size ≤ s.indent_stack.length)
    (hm : measureIndent lx.input = (w, cnt, rest))
    (hal : s.at_line_start = true) (hvd : valid .dedent = true)
    (hr1 : rest.headD nulChar ≠ '\n') (hr2 : rest.headD nulChar ≠ '\r')
    (hr3 : rest.headD nulChar ≠ nulChar)
    (hr4 : ¬(rest.headD nulChar = '/' ∧ lx.column + cnt = w))
    (hw : w < topOf s) (hmem : w ∉ liveStack s) :
    ((scan s valid lx).1 = none ∨ (scan s valid lx).1 = some .raw) ∧
      (valid .raw = false → (scan s valid lx).1 = none) := by
  have hsz1 : 1 ≤ s.indent_stack_size := inv_size_pos hinv
  have hmis : s.indent_stack.getD (popWhile s.indent_stack w s.indent_stack_size - 1) 0 ≠ w := by
    intro hceq
    apply hmem
    rw [← hceq]
    have hns1 : 1 ≤ popWhile s.indent_stack w s.indent_stack_size :=
      popWhile_pos _ _ _ hsz1
    have hns2 : popWhile s.indent_stack w s.indent_stack_size ≤ s.indent_stack_size :=
      popWhile_le _ _ _
    exact getD_mem_take (by omega) hsz
  obtain ⟨-, -, hd, hnr⟩ :=
    scan_misaligned s valid lx w cnt rest hm hal hvd hr1 hr2 hr3 hr4 hw hmis
  exact ⟨hd, hnr⟩

theorem c7_witness :
    ((scan ⟨0, [0, 4], 2, 0, true⟩ (fun t => !(t == TokenType.raw))
        ⟨[' ', ' ', 'x'], 0⟩).1 = none ∨
      (scan ⟨0, [0, 4], 2, 0, true⟩ (fun t => !(t == TokenType.raw))
        ⟨[' ', ' ', 'x'], 0⟩).1 = some .raw) ∧
      ((fun t => !(t == TokenType.raw)) TokenType.raw = false →
        (scan ⟨0, [0, 4], 2, 0, true⟩ (fun t => !(t == TokenType.raw))
          ⟨[' ', ' ', 'x'], 0⟩).1 = none) :=
  c7_misaligned_declines ⟨0, [0, 4], 2, 0, true⟩ (fun t => !(t == TokenType.raw))
    ⟨[' ', ' ', 'x'], 0⟩ 2 2 ['x']
    ⟨by decide, by decide, by decide⟩ (by decide) (by decide) (by decide) (by decide)
    (by decide) (by decide) (by decide) (by decide) (by decide) (by decide)

theorem indentPhase_inl_eqw {s : Scanner} {valid : TokenType → Bool} {lx : Lexer}
    {t : Option TokenType} {s' : Scanner} {lx' : Lexer}
    (heq : indentPhase s valid lx = Sum.inl (t, s', lx'))
    (h : (measureIndent lx.input).1 = topOf s) :
    s'.indent_stack = s.indent_stack ∧ s'.indent_stack_size = s.indent_stack_size ∧
      t ≠ some .indent ∧ t ≠ some .dedent := by
  simp only [indentPhase] at heq
  split at heq
  · split at heq
    · simp only [Sum.inl.injEq, Prod.mk.injEq] at heq
      obtain ⟨rfl, rfl, rfl⟩ := heq
      exact ⟨rfl, rfl, by decide, by decide⟩
    · split at heq
      · simp only [Sum.inl.injEq, Prod.mk.injEq] at heq
        obtain ⟨rfl, rfl, rfl⟩ := heq
        exact ⟨rfl, rfl, by decide, by decide⟩
      · split at heq
        · rename_i hcond
          have hlt := hcond.1
          rw [h] at hlt
          exact absurd hlt (lt_irrefl _)
        · split at heq
          · rename_i hcond
            have hlt := hcond.1
            rw [h] at hlt
            exact absurd hlt (lt_irrefl _)
          · simp at heq
  · simp at heq

theorem indentPhase_inr_eqw {s : Scanner} {valid : TokenType → Bool} {lx : Lexer}
    {s1 : Scanner} {lx1 : Lexer}
    (heq : indentPhase s valid lx = Sum.inr (s1, lx1))
    (h : (measureIndent lx.input).1 = topOf s) :
    s1.indent_stack = s.indent_stack ∧ s1.indent_stack_size = s.indent_stack_size := by
  simp only [indentPhase] at heq
  split at heq
  · split at heq
    · simp at heq
    · split at heq
      · simp at heq
      · split at heq
        · simp at heq
        · split at heq
          · rename_i hcond
            have hlt := hcond.1
            rw [h] at hlt
            exact absurd hlt (lt_irrefl _)
          · simp only [Sum.inr.injEq, Prod.mk.injEq] at heq
            obtain ⟨rfl, rfl⟩ := heq
            exact ⟨rfl, rfl⟩
  · simp only [Sum.inr.injEq, Prod.mk.injEq] at heq
    obtain ⟨rfl, rfl⟩ := heq
    exact ⟨rfl, rfl⟩

/-- A scan call on a line whose measured width equals the stack top
leaves the stack array and size untouched and emits neither INDENT nor
DEDENT, whatever the acceptable-token set. -/
theorem scan_eq_width (s : Scanner) (valid : TokenType → Bool) (lx : Lexer)
    (h : (measureIndent lx.input).1 = topOf s) :
    (scan s valid lx).2.1.indent_stack = s.indent_stack ∧
      (scan s valid lx).2.1.indent_stack_size = s.indent_stack_size ∧
      (scan s valid lx).1 ≠ some .indent ∧ (scan s valid lx).1 ≠ some .dedent := by
  unfold scan
  split
  · exact ⟨rfl, rfl, by simp, by simp⟩
  · rcases hip : indentPhase s valid lx with ⟨t, s', lx'⟩ | ⟨s1, lx1⟩
    · exact indentPhase_inl_eqw hip h
    · obtain ⟨h1, h2⟩ := indentPhase_inr_eqw hip h
      dsimp only
      split
      · split
        · exact ⟨h1, h2, by simp, by simp⟩
        · split
          · exact ⟨h1, h2, by simp, by simp⟩
          · split
            · exact ⟨h1, h2, by simp, by simp⟩
            · exact ⟨h1, h2, by simp, by simp⟩
      · exact ⟨h1, h2, by simp, by simp⟩

theorem scanFold_stack_unchanged :
    ∀ (calls : List ((TokenType → Bool) × Lexer)) (s : Scanner),
      (∀ p ∈ calls, (measureIndent p.2.input).1 = topOf s) →
      (scanFold s calls).indent_stack = s.indent_stack ∧
        (scanFold s calls).indent_stack_size = s.indent_stack_size := by
  intro calls
  induction calls with
  | nil => intro s _; exact ⟨rfl, rfl⟩
  | cons p rest ih =>
    intro s hyp
    obtain ⟨v, lx⟩ := p
    have h0 := hyp (v, lx) (List.mem_cons_self _ _)
    obtain ⟨h1, h2, -, -⟩ := scan_eq_width s v lx h0
    have htop : topOf (scan s v lx).2.1 = topOf s := by
      unfold topOf
      rw [h1, h2]
    have hyp' : ∀ p ∈ rest, (measureIndent p.2.input).1 = topOf (scan s v lx).2.1 := by
      intro p hp
      rw [htop]
      exact hyp p (List.mem_cons_of_mem _ hp)
    obtain ⟨g1, g2⟩ := ih (scan s v lx).2.1 hyp'
    exact ⟨by rw [show scanFold s ((v, lx) :: rest) = scanFold (scan s v lx).2.1 rest from rfl,
        g1, h1],
      by rw [show scanFold s ((v, lx) :: rest) = scanFold (scan s v lx).2.1 rest from rfl,
        g2, h2]⟩

/-- C8, amended.  A scan call on a line whose measured indentation width
equals the current stack top leaves `indentStack` (array and size)
unchanged and emits neither INDENT nor DEDENT (it declines unless the
NEWLINE or raw-string branches separately produce their token); and no
sequence of calls on equal-width lines ever mutates the live stack. -/
theorem c8_equal_width_amended (s : Scanner) (valid : TokenType → Bool) (lx : Lexer)
    (calls : List ((TokenType → Bool) × Lexer)) :
    ((measureIndent lx.input).1 = topOf s →
      (scan s valid lx).2.1.indent_stack = s.indent_stack ∧
        (scan s valid lx).2.1.indent_stack_size = s.indent_stack_size ∧
        (scan s valid lx).1 ≠ some .indent ∧ (scan s valid lx).1 ≠ some .dedent) ∧
      ((∀ p ∈ calls, (measureIndent p.2.input).1 = topOf s) →
        liveStack (scanFold s calls) = liveStack s) := by
  constructor
  · exact scan_eq_width s valid lx
  · intro hyp
    obtain ⟨g1, g2⟩ := scanFold_stack_unchanged calls s hyp
    unfold liveStack
    rw [g1, g2]

theorem c8_amended_witness :
    ((scan ⟨0, [0], 1, 0, true⟩ allValid ⟨['x'], 0⟩).2.1.indent_stack
        = (⟨0, [0], 1, 0, true⟩ : Scanner).indent_stack ∧
      (scan ⟨0, [0], 1, 0, true⟩ allValid ⟨['x'], 0⟩).2.1.indent_stack_size
        = (⟨0, [0], 1, 0, true⟩ : Scanner).indent_stack_size ∧
      (scan ⟨0, [0], 1, 0, true⟩ allValid ⟨['x'], 0⟩).1 ≠ some .indent ∧
      (scan ⟨0, [0], 1, 0, true⟩ allValid ⟨['x'], 0⟩).1 ≠ some .dedent) ∧
      liveStack (scanFold ⟨0, [0], 1, 0, true⟩
          [(allValid, ⟨['x'], 0⟩), (allValid, ⟨['y'], 0⟩)])
        = liveStack (⟨0, [0], 1, 0, true⟩ : Scanner) :=
  ⟨(c8_equal_width_amended ⟨0, [0], 1, 0, true⟩ allValid ⟨['x'], 0⟩
      [(allValid, ⟨['x'], 0⟩), (allValid, ⟨['y'], 0⟩)]).1 (by decide),
   (c8_equal_width_amended ⟨0, [0], 1, 0, true⟩ allValid ⟨['x'], 0⟩
      [(allValid, ⟨['x'], 0⟩), (allValid, ⟨['y'], 0⟩)]).2 (by decide)⟩

theorem hashRun_cons (c : Char) (t : List Char) :
    hashRun (c :: t) = if c = '#' then hashRun t + 1 else 0 := rfl

theorem hashRun_replicate_append (n : Nat) (t : List Char) :
    hashRun (List.replicate n '#' ++ t) = n + hashRun t := by
  induction n with
  | zero => simp
  | succ n ih =>
    rw [List.replicate_succ, List.cons_append, hashRun_cons, if_pos rfl, ih]
    omega

theorem hashRun_cut {q : Char} (hq : q ≠ '#') :
    ∀ (v X : List Char), hashRun (v ++ q :: X) = hashRun (v ++ [q]) := by
  intro v
  induction v with
  | nil =>
    intro X
    simp only [List.nil_append]
    rw [hashRun_cons, hashRun_cons, if_neg hq, if_neg hq]
  | cons a v ih =>
    intro X
    simp only [List.cons_append]
    rw [hashRun_cons, hashRun_cons]
    by_cases ha : a = '#'
    · rw [if_pos ha, if_pos ha, ih]
    · rw [if_neg ha, if_neg ha]

theorem hashRun_append_le {q : Char} (hq : q ≠ '#') :
    ∀ v : List Char, hashRun (v ++ [q]) ≤ v.length := by
  intro v
  induction v with
  | nil =>
    simp only [List.nil_append, List.length_nil]
    rw [hashRun_cons, if_neg hq]
  | cons a v ih =>
    simp only [List.cons_append, List.length_cons]
    rw [hashRun_cons]
    by_cases ha : a = '#'
    · rw [if_pos ha]
      omega
    · rw [if_neg ha]
      omega

theorem okBody_drop (n : Nat) (q : Char) :
    ∀ (l : List Char) (k : Nat), okBody n q l = true → okBody n q (l.drop k) = true := by
  intro l
  induction l with
  | nil =>
    intro k h
    rw [List.drop_nil]
    exact h
  | cons a l ih =>
    intro k h
    cases k with
    | zero => exact h
    | succ k =>
      rw [List.drop_succ_cons]
      apply ih
      unfold okBody at h
      simp only [Bool.and_eq_true] at h
      exact h.2

theorem advance_input (lx : Lexer) : (advance lx).input = lx.input.tail := by
  obtain ⟨inp, col⟩ := lx
  rcases inp with _ | ⟨c, t⟩ <;> rfl

theorem advanceMany_input : ∀ (k : Nat) (lx : Lexer), k ≤ lx.input.length →
    (advanceMany lx k).input = lx.input.drop k := by
  intro k
  induction k with
  | zero => intro lx _; rfl
  | succ k ih =>
    intro lx h
    obtain ⟨inp, col⟩ := lx
    rcases inp with _ | ⟨c, t⟩
    · simp at h
    · show (advanceMany (advance ⟨c :: t, col⟩) k).input = (c :: t).drop (k + 1)
      have hadv : advance ⟨c :: t, col⟩ = ⟨t, if c = '\n' then 0 else col + 1⟩ := rfl
      rw [hadv, ih _ (by simpa using h)]
      rfl

/-- The raw-string body loop closes exactly at the final quote + `n`
markers whenever every interior occurrence of the quote is followed by
fewer than `n` markers. -/
theorem scanBody_closes :
    ∀ (fuel n : Nat) (q : Char) (body rest : List Char),
      1 ≤ n → q ≠ '#' → q ≠ nulChar → nulChar ∉ body → okBody n q body = true →
      body.length + n + 1 + rest.length ≤ fuel →
      scanBody q n fuel (body ++ q :: (List.replicate n '#' ++ rest)) = some rest := by
  intro fuel
  induction fuel with
  | zero =>
    intro n q body rest hn _ _ _ _ hfuel
    omega
  | succ fuel ih =>
    intro n q body rest hn hq hq0 hnul hok hfuel
    rcases body with _ | ⟨c, cs⟩
    · show scanBody q n (fuel + 1) (q :: (List.replicate n '#' ++ rest)) = some rest
      simp only [scanBody]
      rw [if_neg hq0, if_pos trivial, hashRun_replicate_append]
      rw [Nat.min_eq_right (Nat.le_add_right _ _), if_pos rfl]
      have hdrop := List.drop_left (List.replicate n '#') rest
      rw [List.length_replicate] at hdrop
      rw [hdrop]
    · simp only [List.cons_append, List.length_cons] at hfuel ⊢
      have hcnul : c ≠ nulChar := by
        intro hc
        exact hnul (by rw [← hc]; exact List.mem_cons_self _ _)
      simp only [scanBody]
      rw [if_neg hcnul]
      by_cases hc : c = q
      · rw [if_pos hc]
        unfold okBody at hok
        simp only [Bool.and_eq_true] at hok
        obtain ⟨hok1, hokrest⟩ := hok
        rw [if_pos hc] at hok1
        have hlt : hashRun (cs ++ [q]) < n := of_decide_eq_true hok1
        rw [hashRun_cut hq cs (List.replicate n '#' ++ rest)]
        rw [Nat.min_eq_left (by omega)]
        rw [if_neg (by omega)]
        have hkle : hashRun (cs ++ [q]) ≤ cs.length := hashRun_append_le hq cs
        rw [List.drop_append_of_le_length hkle]
        exact ih n q (cs.drop (hashRun (cs ++ [q]))) rest hn hq hq0
          (fun hm => hnul (List.mem_cons_of_mem _ (List.mem_of_mem_drop hm)))
          (okBody_drop n q cs _ hokrest)
          (by rw [List.length_drop]; omega)
      · rw [if_neg hc]
        unfold okBody at hok
        simp only [Bool.and_eq_true] at hok
        exact ih n q cs rest hn hq hq0
          (fun hm => hnul (List.mem_cons_of_mem _ hm)) hok.2 (by omega)

theorem indentPhase_not_line_start {s : Scanner} {valid : TokenType → Bool}
    {lx : Lexer} (hal : s.at_line_start = false) :
    indentPhase s valid lx = Sum.inr (s, lx) := by
  unfold indentPhase
  rw [if_neg (by rw [hal]; simp)]

/-- C5, amended.  For every marker count `n ≥ 1` and quote `q` (`"` or
`'`), an input of `n` markers, `q`, a body, `q` and exactly `n` markers
is recognized by the raw-string recognizer as one token spanning the
whole literal, provided every interior occurrence of `q` in the body is
followed by *fewer than* `n` marker characters (and the body contains no
NUL, which the lexing interface treats as end of input).  Interior
occurrences of `q` followed by runs of length `< n` are absorbed as body
content; a run of length `> n` would close the literal early, which is
what the counterexample exhibits. -/
theorem c5_raw_string_amended (s : Scanner) (valid : TokenType → Bool) (n : Nat)
    (q : Char) (body : List Char) (col : Nat)
    (hal : s.at_line_start = false) (hvr : valid .raw = true) (hn : 1 ≤ n)
    (hq : q = '"' ∨ q = '\'') (hnul : nulChar ∉ body) (hok : okBody n q body = true) :
    (scan s valid
        ⟨List.replicate n '#' ++ q :: (body ++ q :: List.replicate n '#'), col⟩).1
        = some .raw ∧
      (scan s valid
        ⟨List.replicate n '#' ++ q :: (body ++ q :: List.replicate n '#'), col⟩).2.1
        = s ∧
      (scan s valid
        ⟨List.replicate n '#' ++ q :: (body ++ q :: List.replicate n '#'), col⟩).2.2.input
        = [] := by
  have hq' : q ≠ '#' := by rcases hq with rfl | rfl <;> decide
  have hq0 : q ≠ nulChar := by rcases hq with rfl | rfl <;> decide
  have hlook : lookahead ⟨List.replicate n '#' ++ q :: (body ++ q :: List.replicate n '#'), col⟩
      = '#' := by
    rcases n with _ | m
    · omega
    · rw [List.replicate_succ]
      rfl
  have hnl : ¬ (valid .newline = true ∧
      (lookahead ⟨List.replicate n '#' ++ q :: (body ++ q :: List.replicate n '#'), col⟩ = '\n' ∨
       lookahead ⟨List.replicate n '#' ++ q :: (body ++ q :: List.replicate n '#'), col⟩ = '\r')) := by
    rintro ⟨-, hc | hc⟩ <;> rw [hlook] at hc <;> exact absurd hc (by decide)
  unfold scan
  rw [if_neg hnl, indentPhase_not_line_start hal]
  dsimp only
  rw [if_pos hvr]
  have hrun : hashRun (List.replicate n '#' ++ q :: (body ++ q :: List.replicate n '#')) = n := by
    rw [hashRun_replicate_append]
    have h0 : hashRun (q :: (body ++ q :: List.replicate n '#')) = 0 := by
      rw [hashRun_cons, if_neg hq']
    rw [h0]
    omega
  simp only [hrun]

  rw [if_neg (show ¬ (n = 0) by omega)]
  have hlx2 : (advanceMany ⟨List.replicate n '#' ++ q :: (body ++ q :: List.replicate n '#'), col⟩ n).input
      = q :: (body ++ q :: List.replicate n '#') := by
    rw [advanceMany_input n _ (by simp)]
    have hdrop := List.drop_left (List.replicate n '#') (q :: (body ++ q :: List.replicate n '#'))
    rw [List.length_replicate] at hdrop
    exact hdrop
  have hlook2 : lookahead (advanceMany ⟨List.replicate n '#' ++ q :: (body ++ q :: List.replicate n '#'), col⟩ n)
      = q := by
    unfold lookahead
    rw [hlx2]
    rfl
  rw [if_neg (by
    rw [hlook2]
    rintro ⟨ha, hb⟩
    rcases hq with rfl | rfl
    · exact ha rfl
    · exact hb rfl)]
  have hlx3 : (advance (advanceMany ⟨List.replicate n '#' ++ q :: (body ++ q :: List.replicate n '#'), col⟩ n)).input
      = body ++ q :: List.replicate n '#' := by
    rw [advance_input, hlx2]
    rfl
  have hsb : scanBody q n ((body ++ q :: List.replicate n '#').length)
      (body ++ q :: List.replicate n '#') = some ([] : List Char) := by
    have := scanBody_closes ((body ++ q :: List.replicate n '#').length) n q body []
      hn hq' hq0 hnul hok (by simp; omega)
    simpa using this
  simp only [hlook2, hlx3, hsb]
  refine ⟨trivial, trivial, ?_⟩
  simp only [List.length_nil, Nat.sub_zero]
  have hfin := advanceMany_input ((body ++ q :: List.replicate n '#').length)
    (advance (advanceMany
      ⟨List.replicate n '#' ++ q :: (body ++ q :: List.replicate n '#'), col⟩ n))
    (by simp [hlx3])
  rw [hfin, hlx3]
  exact List.drop_length _

theorem c5_amended_witness :
    (scan ⟨0, [0], 1, 0, false⟩ allValid
        ⟨List.replicate 2 '#' ++ '"' :: ("he said \"\"hi\"\"#".toList ++
          '"' :: List.replicate 2 '#'), 0⟩).1 = some .raw ∧
      (scan ⟨0, [0], 1, 0, false⟩ allValid
        ⟨List.replicate 2 '#' ++ '"' :: ("he said \"\"hi\"\"#".toList ++
          '"' :: List.replicate 2 '#'), 0⟩).2.1 = ⟨0, [0], 1, 0, false⟩ ∧
      (scan ⟨0, [0], 1, 0, false⟩ allValid
        ⟨List.replicate 2 '#' ++ '"' :: ("he said \"\"hi\"\"#".toList ++
          '"' :: List.replicate 2 '#'), 0⟩).2.2.input = [] :=
  c5_raw_string_amended ⟨0, [0], 1, 0, false⟩ allValid 2 '"'
    ("he said \"\"hi\"\"#".toList) 0 (by decide) (by decide) (by decide)
    (Or.inl rfl) (by decide) (by decide)

/-- C1.  The claim `deserialize(serialize(state)) == state` fails on the
code: `serialize` emits exactly `7 + 4·depth` bytes, while the stack
`memcpy` in `deserialize` is guarded by the strict check
`length > offset + depth * 4` with `offset = 7`, so on its own output the
stack entries are never copied back.   Round-tripping the state with
stack `[0, 2]` through a scanner whose stack is `[0, 5]` restores hash
count, depth, `currentIndent` and `atLineStart` but leaves the stack
entries at the target's values `[0, 5]`, so the result differs from the
serialized state. -/
theorem c1_roundtrip_loses_stack :
    deserialize ⟨0, [0, 5], 2, 2, false⟩ (serialize ⟨0, [0, 2], 2, 2, false⟩)
        = some ⟨0, [0, 5], 2, 2, false⟩ ∧
      (⟨0, [0, 5], 2, 2, false⟩ : Scanner) ≠ ⟨0, [0, 2], 2, 2, false⟩ := by
  decide

/-- C3.  The claim that the push fails with an `IndentStackOverflow`
condition and that the stack array is never written past its fixed
capacity fails on the code: line 135 pushes unconditionally.  From a
full stack of depth `maxStackDepth = 100` (entries `0..99`), scanning a
line of width 100 with INDENT acceptable emits INDENT and leaves
`indent_stack_size = 101`; the C write `indent_stack[100] = indent` is
past the end of the `int indent_stack[100]` array. -/
theorem c3_overflow_unchecked :
    (scan ⟨0, List.range 100, 100, 99, true⟩ allValid
        ⟨List.replicate 100 ' ' ++ ['x'], 0⟩).1 = some .indent ∧
      (scan ⟨0, List.range 100, 100, 99, true⟩ allValid
        ⟨List.replicate 100 ' ' ++ ['x'], 0⟩).2.1.indent_stack_size
        = maxStackDepth + 1 := by
  decide

/-- C4.  The claim that a second character is consumed only after `'\r'`
(CRLF) and that two consecutive `'\n'` are never merged fails on the
code: line 98 tests the column *after* the first `advance`, and
tree-sitter resets the column to 0 exactly when `'\n'` is consumed.  So
`"\n\n"` is consumed whole by one NEWLINE token, while `"\r\n"` (with
the `'\r'` not at column 0) consumes only the `'\r'`. -/
theorem c4_newline_merge_inverted :
    (scan ⟨0, [0], 1, 0, false⟩ allValid ⟨['\n', '\n'], 7⟩).1 = some .newline ∧
      (scan ⟨0, [0], 1, 0, false⟩ allValid ⟨['\n', '\n'], 7⟩).2.2.input = [] ∧
      (scan ⟨0, [0], 1, 0, false⟩ allValid ⟨['\r', '\n'], 7⟩).1 = some .newline ∧
      (scan ⟨0, [0], 1, 0, false⟩ allValid ⟨['\r', '\n'], 7⟩).2.2.input = ['\n'] := by
  decide

/-- C2, counterexample.  On the Scenario A input (lines of widths
`0, 2, 2, 4, 0`), the session emits exactly one DEDENT, not the claimed
two: the pop loop of lines 142-144 pops both levels in the single call,
and the token sequence is not the claimed
`NEWLINE, INDENT, NEWLINE, INDENT, NEWLINE, DEDENT, DEDENT`. -/
theorem c2_two_dedents_refuted :
    ((session 20 (create (List.replicate 100 0))
        ⟨"a\n  b\n  c\n    d\ne".toList, 0⟩).1.count .dedent = 1) ∧
      (session 20 (create (List.replicate 100 0))
        ⟨"a\n  b\n  c\n    d\ne".toList, 0⟩).1
        ≠ [.newline, .indent, .newline, .indent, .newline, .dedent, .dedent] := by
  decide

/-- C2, amended.  On the Scenario A input the scanner emits
`NEWLINE, INDENT(2), NEWLINE, NEWLINE, INDENT(4), NEWLINE, DEDENT`: the
return to width 0 produces a single DEDENT in one scan call which pops
both open levels, with stack progression
`[0] → [0,2] → [0,2,4] → [0]` and final stack `[0]`. -/
theorem c2_session_amended :
    (session 20 (create (List.replicate 100 0))
        ⟨"a\n  b\n  c\n    d\ne".toList, 0⟩).1
        = [.newline, .indent, .newline, .newline, .indent, .newline, .dedent] ∧
      liveStack (session 20 (create (List.replicate 100 0))
        ⟨"a\n  b\n  c\n    d\ne".toList, 0⟩).2 = [0] := by
  decide

/-- C5, counterexample.  With marker count `n = 1`, quote `'"'` and body
`"##` — whose interior quote is followed by a marker run of length
`2 ≠ 1` — the literal `#""##"#` is *not* recognized as a token spanning
the whole input: the close-counting loop consumes at most `n` markers,
so a run longer than `n` closes the literal early, leaving `#"#`
unconsumed. -/
theorem c5_long_run_closes_early :
    (scan ⟨0, [0], 1, 0, false⟩ allValid
        ⟨['#', '"', '"', '#', '#', '"', '#'], 0⟩).1 = some .raw ∧
      (scan ⟨0, [0], 1, 0, false⟩ allValid
        ⟨['#', '"', '"', '#', '#', '"', '#'], 0⟩).2.2.input = ['#', '"', '#'] := by
  decide

/-- C7, counterexample.  A misaligned dedent does not always decline: if
the raw-string kind is also acceptable and the line is a raw-string
literal, the call falls through lines 140-152 into the raw-string block
and produces a token.  Here the stack is `[0, 4]`, the line `  #"x"#`
has width `2 < 4` matching no stack entry, DEDENT is acceptable — and
the call returns a raw-string token. -/
theorem c7_raw_token_after_misalignment :
    ((measureIndent ("  #\"x\"#".toList)).1 = 2 ∧
        2 < topOf ⟨0, [0, 4], 2, 0, true⟩ ∧
        2 ∉ liveStack ⟨0, [0, 4], 2, 0, true⟩) ∧
      (scan ⟨0, [0, 4], 2, 0, true⟩ allValid ⟨"  #\"x\"#".toList, 0⟩).1
        = some .raw := by
  decide

/-- C8, counterexample.  A call on a line whose measured width equals
the stack top does not always decline: with the raw-string kind
acceptable and the line a raw-string literal, the indentation logic
falls through and the call produces a raw-string token (the stack is
still left unchanged). -/
theorem c8_raw_token_at_equal_width :
    ((measureIndent ("#\"x\"#".toList)).1 = topOf ⟨0, [0], 1, 0, true⟩) ∧
      (scan ⟨0, [0], 1, 0, true⟩ allValid ⟨"#\"x\"#".toList, 0⟩).1
        = some .raw := by
  decide

end Cangjie
